import Mathlib

/-!
Verification of the EleFits core data-access layer against its specification.

The development shallowly embeds the C++ sources:
- `EleFitsData/Raster.h` (linear indexing, contiguity, slices);
- `EL_FitsFile/FileMemRegions.h` (file/memory region resolution);
- `EleFitsData/Compression.h` and `impl/Compression.hpp` (Factor, Quantization,
  compression algorithms);
- `EleCfitsioWrapper/impl/BintableWrapper.hpp` (chunked multi-column I/O),
  modelled as the trace of storage-engine calls such an operation issues.

Machine `long`s are embedded as `Int` (or `Nat` for counts that the sources
keep non-negative); `float` is embedded as `Rat`, which models IEEE floats
exactly for the operations the sources perform on them (negation, comparison
with zero, absolute value), NaN inputs excluded.
-/

namespace EleFits

/-! ## Positions and linear indexing

`Position<N>` (`EleFitsData/Position.h`, header absent from `src/`) is an
ordered sequence of signed integers, one per axis; the variable-length form is
embedded as `List Int`.  Modelled from the spec: component-wise arithmetic,
the `MAX` sentinel being `-1`, `zero()` and `isMax()`.
-/

/-- Modelled from the spec: the raster linear-index fold of §4.1
(`index = p[0] + s[0]*(p[1] + s[1]*(p[2] + ...))`), the shared index
computation of `Raster::index` whose implementation file is absent from
`src/`.  First argument is the shape, second the position. -/
def linearIndex : List Int → List Int → Int
  | s :: ss, p :: ps => p + s * linearIndex ss ps
  | _, _ => 0

/-- Modelled from the spec: `shapeSize`, the number of values of a shape
(product of the components). -/
def shapeSize (shape : List Int) : Int :=
  shape.foldr (· * ·) 1

theorem linearIndex_nil_right (s : List Int) : linearIndex s [] = 0 := by
  cases s <;> rfl

theorem linearIndex_nil_left (p : List Int) : linearIndex [] p = 0 := by
  cases p <;> rfl

/-- `linearIndex` is additive in the position argument: the weights depend
only on the shape. -/
theorem linearIndex_zipWith_add :
    ∀ (s f q : List Int), f.length = q.length →
      linearIndex s (List.zipWith (· + ·) f q) = linearIndex s f + linearIndex s q := by
  intro s
  induction s with
  | nil => intro f q _; simp [linearIndex_nil_left]
  | cons s0 ss ih =>
    intro f q hlen
    cases f with
    | nil =>
      cases q with
      | nil => simp [linearIndex]
      | cons _ _ => simp at hlen
    | cons f0 fs =>
      cases q with
      | nil => simp at hlen
      | cons q0 qs =>
        simp only [List.zipWith_cons_cons, linearIndex]
        rw [ih fs qs (by simpa using hlen)]
        ring

theorem linearIndex_replicate_zero :
    ∀ (s : List Int) (k : Nat), linearIndex s (List.replicate k 0) = 0 := by
  intro s
  induction s with
  | nil => intro k; exact linearIndex_nil_left _
  | cons s0 ss ih =>
    intro k
    cases k with
    | zero => simp [linearIndex_nil_right]
    | succ k => simp [List.replicate, linearIndex, ih k]

/-- Appending trailing zeros to a position does not change its linear index. -/
theorem linearIndex_append_replicate_zero :
    ∀ (s p : List Int) (k : Nat),
      linearIndex s (p ++ List.replicate k 0) = linearIndex s p := by
  intro s
  induction s with
  | nil => intro p k; simp [linearIndex_nil_left]
  | cons s0 ss ih =>
    intro p k
    cases p with
    | nil => simp [linearIndex_nil_right, linearIndex_replicate_zero]
    | cons p0 ps => simp [linearIndex, ih ps k]

/-- The linear index of a position `p` only depends on the first
`p.length - 1` shape components, as long as the shape is at least as long as
the position. -/
theorem linearIndex_congr_shape :
    ∀ (p s t : List Int), p.length ≤ s.length → p.length ≤ t.length →
      s.take (p.length - 1) = t.take (p.length - 1) →
      linearIndex s p = linearIndex t p := by
  intro p
  induction p with
  | nil => intro s t _ _ _; simp [linearIndex_nil_right]
  | cons p0 ps ih =>
    intro s t hs ht htake
    cases s with
    | nil => simp at hs
    | cons s0 ss =>
      cases t with
      | nil => simp at ht
      | cons t0 ts =>
        cases ps with
        | nil => simp [linearIndex, linearIndex_nil_right]
        | cons p1 ps' =>
          simp only [List.length_cons, Nat.succ_sub_one, List.take_succ_cons,
            List.cons.injEq] at htake
          simp only [linearIndex]
          rw [htake.1, ih ss ts (by simpa using hs) (by simpa using ht)
            (by simpa [Nat.succ_sub_one] using htake.2)]

/-! ## Regions and rasters (`EleFitsData/Raster.h`)

`Region<N>` (`EleFitsData/Region.h`, absent from `src/`) is a closed box.
Modelled from the spec: `front`/`back` inclusive bounds,
`shape = back - front + 1` component-wise. -/

structure RegionL where
  front : List Int
  back : List Int
deriving DecidableEq, Repr

/-- Modelled from the spec: `Region::shape()` is `back - front + 1`
component-wise. -/
def RegionL.shape (r : RegionL) : List Int :=
  List.zipWith (fun f b => b - f + 1) r.front r.back

/-- A raster: a shape plus a contiguous buffer addressed by linear index
(`Raster<T, N, TContainer>` of `EleFitsData/Raster.h`).  The buffer is
embedded as a function from linear index to value, which models the data
pointer of `PtrRaster` and the vector of `VecRaster`. -/
structure RasterF (α : Type) where
  shape : List Int
  data : Int → α

/-- Element at a position: the buffer value at the linear index of the
position (`Raster::operator[]`). -/
def RasterF.elem (r : RasterF α) (p : List Int) : α :=
  r.data (linearIndex r.shape p)

/-- Modelled from the spec: `Raster::isContiguous<M>(region)`
(`impl/Raster.hpp` is absent from `src/`); §4.2 contiguity rule: for every
axis `i < M-1`, `front[i] = 0` and `back[i] = shape[i]-1`; for every axis
`i ≥ M`, `front[i] = back[i]`. -/
def isContiguous (M : Nat) (shape : List Int) (region : RegionL) : Bool :=
  ((List.range (M - 1)).all fun i =>
    region.front.getD i 0 == 0 && region.back.getD i 0 == shape.getD i 0 - 1) &&
  ((List.range shape.length).all fun i =>
    !(decide (M ≤ i)) || (region.front.getD i 0 == region.back.getD i 0))

/-- Modelled from the spec: `Raster::slice<M>(region)` (`impl/Raster.hpp` is
absent from `src/`): valid only for a contiguous region; returns a view of
dimension `M` sharing the parent buffer, whose shape is the first `M`
components of the region shape and whose data starts at the linear index of
the region front. -/
def RasterF.slice (M : Nat) (r : RasterF α) (region : RegionL) : Option (RasterF α) :=
  if isContiguous M r.shape region then
    some { shape := region.shape.take M,
           data := fun k => r.data (linearIndex r.shape region.front + k) }
  else none

/-- The §4.2 contiguity rule as a proposition. -/
def ContiguityRule (M : Nat) (shape : List Int) (region : RegionL) : Prop :=
  (∀ i, i < M - 1 → region.front.getD i 0 = 0 ∧ region.back.getD i 0 = shape.getD i 0 - 1) ∧
  (∀ i, M ≤ i → i < shape.length → region.front.getD i 0 = region.back.getD i 0)

theorem isContiguous_iff_rule (M : Nat) (shape : List Int) (region : RegionL) :
    isContiguous M shape region = true ↔ ContiguityRule M shape region := by
  unfold isContiguous ContiguityRule
  simp only [Bool.and_eq_true, List.all_eq_true, List.mem_range, beq_iff_eq,
    Bool.or_eq_true, Bool.not_eq_true', decide_eq_false_iff_not, not_le]
  constructor
  · rintro ⟨h1, h2⟩
    refine ⟨fun i hi => h1 i hi, fun i hMi hilen => ?_⟩
    rcases h2 i hilen with h | h
    · omega
    · exact h
  · rintro ⟨h1, h2⟩
    refine ⟨fun i hi => h1 i hi, fun i hilen => ?_⟩
    by_cases hMi : M ≤ i
    · exact Or.inr (h2 i hMi hilen)
    · exact Or.inl (by omega)

/-- Under the contiguity rule, the first `M - 1` components of the region
shape agree with the parent shape (each spanned axis spans fully). -/
theorem regionShape_take_eq (M : Nat) (shape : List Int) (region : RegionL)
    (hf : region.front.length = shape.length)
    (hb : region.back.length = shape.length)
    (hM : M ≤ shape.length)
    (hc : ContiguityRule M shape region) :
    region.shape.take (M - 1) = shape.take (M - 1) := by
  apply List.ext_getElem
  · simp [RegionL.shape, List.length_take, List.length_zipWith, hf, hb]
  · intro i h1 h2
    have hi : i < M - 1 := by
      simp [RegionL.shape, List.length_take, List.length_zipWith, hf, hb] at h1
      omega
    have hilen : i < shape.length := by omega
    have hif : i < region.front.length := by omega
    have hib : i < region.back.length := by omega
    have hfr : region.front.getD i 0 = region.front[i] :=
      List.getD_eq_getElem _ _ hif
    have hbk : region.back.getD i 0 = region.back[i] :=
      List.getD_eq_getElem _ _ hib
    have hsh : shape.getD i 0 = shape[i] := List.getD_eq_getElem _ _ hilen
    obtain ⟨hc1, hc2⟩ := hc.1 i hi
    rw [hfr] at hc1
    rw [hbk, hsh] at hc2
    simp only [List.getElem_take, RegionL.shape, List.getElem_zipWith]
    rw [hc1, hc2]
    ring

/-- C4.  `isContiguous<M>(region)` returns true exactly when, for every axis
`i < M-1`, `front[i] = 0` and `back[i] = shape[i]-1`, and for every axis
`i ≥ M`, `front[i] = back[i]`; `slice<M>(region)` succeeds exactly on such
regions, and the slice's element values equal direct indexing into the parent
raster at the translated positions (the region front plus the slice position,
padded with zeros on the collapsed axes). -/
theorem raster_isContiguous_slice {α : Type} (r : RasterF α) (region : RegionL)
    (M : Nat) (p : List Int)
    (hf : region.front.length = r.shape.length)
    (hb : region.back.length = r.shape.length)
    (hM : M ≤ r.shape.length)
    (hp : p.length = M) :
    (isContiguous M r.shape region = true ↔ ContiguityRule M r.shape region)
    ∧ ((r.slice M region).isSome = true ↔ isContiguous M r.shape region = true)
    ∧ (∀ s, r.slice M region = some s →
        s.elem p = r.elem (List.zipWith (· + ·) region.front
          (p ++ List.replicate (r.shape.length - M) 0))) := by
  refine ⟨isContiguous_iff_rule M r.shape region, ?_, ?_⟩
  · unfold RasterF.slice
    by_cases h : isContiguous M r.shape region <;> simp [h]
  · intro s hs
    unfold RasterF.slice at hs
    by_cases h : isContiguous M r.shape region
    · rw [if_pos h] at hs
      have hc : ContiguityRule M r.shape region := (isContiguous_iff_rule _ _ _).mp h
      cases Option.some.inj hs
      have hrslen : region.shape.length = r.shape.length := by
        simp [RegionL.shape, List.length_zipWith, hf, hb]
      have htakelen : (region.shape.take M).length = M := by
        simp only [List.length_take, hrslen]
        omega
      have hpad : (p ++ List.replicate (r.shape.length - M) 0).length =
          region.front.length := by
        simp only [List.length_append, List.length_replicate, hp, hf]
        omega
      have htk : (region.shape.take M).take (p.length - 1) =
          r.shape.take (p.length - 1) := by
        rw [hp, List.take_take, Nat.min_eq_left (by omega)]
        exact regionShape_take_eq M r.shape region hf hb hM hc
      have hidx : linearIndex r.shape region.front + linearIndex (region.shape.take M) p
          = linearIndex r.shape (List.zipWith (· + ·) region.front
              (p ++ List.replicate (r.shape.length - M) 0)) := by
        rw [linearIndex_zipWith_add r.shape region.front _ hpad.symm,
          linearIndex_append_replicate_zero,
          linearIndex_congr_shape p (region.shape.take M) r.shape
            (by omega) (by omega) htk]
      show r.data (linearIndex r.shape region.front + linearIndex (region.shape.take M) p)
        = r.elem (List.zipWith (· + ·) region.front
            (p ++ List.replicate (r.shape.length - M) 0))
      rw [hidx]
      rfl
    · rw [if_neg h] at hs
      exact absurd hs (by simp)

/-- Witness for C4: a 3-dimensional raster of shape `(4,3,5)` whose buffer
holds its own linear indices, sliced with `M = 2` on the contiguous region
`front = (0,0,2)`, `back = (3,1,2)`: the slice element at `(2,1)` equals the
parent element at the translated position `(2,1,2)`, namely 30. -/
theorem raster_isContiguous_slice_witness :
    ((RasterF.mk [4, 3, 5] (fun k : Int => k)).slice 2
      (RegionL.mk [0, 0, 2] [3, 1, 2])).map (fun s => s.elem [2, 1]) = some 30 := by
  have h := (raster_isContiguous_slice (RasterF.mk [4, 3, 5] (fun k : Int => k))
    (RegionL.mk [0, 0, 2] [3, 1, 2]) 2 [2, 1]
    (by rfl) (by rfl) (by norm_num) (by rfl)).2.2
  obtain ⟨s, hs⟩ : ∃ s, (RasterF.mk [4, 3, 5] (fun k : Int => k)).slice 2
      (RegionL.mk [0, 0, 2] [3, 1, 2]) = some s := ⟨_, rfl⟩
  rw [hs, Option.map_some']
  rw [h s hs]
  rfl

/-! ## FileMemRegions (`EL_FitsFile/FileMemRegions.h`)

The `resolve` loop is embedded from the source; the `Position` helpers it
uses (`isMax`, `zero`, component-wise subtraction, `Region::fromShape`,
`Region::whole`) are modelled from the spec since `Region.h`/`Position.h`
are absent from `src/`. -/

/-- Modelled from the spec: `Position::isMax()`, all components equal the
`MAX` sentinel `-1`. -/
def isMaxPos (p : List Int) : Bool :=
  p.all (· == -1)

/-- Modelled from the spec: `Position::zero()`. -/
def positionZero (n : Nat) : List Int :=
  List.replicate n 0

/-- Modelled from the spec: `Position::max()`, every component the sentinel
`-1`. -/
def positionMax (n : Nat) : List Int :=
  List.replicate n (-1)

/-- Modelled from the spec: `Region::fromShape(front, shape)`, with
`back = front + shape - 1`. -/
def RegionL.fromShape (front shape : List Int) : RegionL :=
  ⟨front, List.zipWith (fun f s => f + s - 1) front shape⟩

/-- Modelled from the spec: `Region::whole()`, front at origin and `back`
unresolved (`MAX`). -/
def RegionL.whole (n : Nat) : RegionL :=
  ⟨positionZero n, positionMax n⟩

/-- `FileMemRegions`: an on-disk region paired with an in-memory region. -/
structure FileMemRegions where
  file : RegionL
  memory : RegionL
deriving DecidableEq, Repr

/-- `FileMemRegions::fileToMemory()`: `memory.front - file.front`. -/
def FileMemRegions.fileToMemory (r : FileMemRegions) : List Int :=
  List.zipWith (· - ·) r.memory.front r.file.front

/-- `FileMemRegions::memoryToFile()`: `file.front - memory.front`. -/
def FileMemRegions.memoryToFile (r : FileMemRegions) : List Int :=
  List.zipWith (· - ·) r.file.front r.memory.front

/-- The `FileMemRegions(filePosition, memoryRegion)` constructor:
`file = fromShape(filePosition, memoryRegion.shape())`, and if the memory
back is unresolved the file back is set to `zero()` as a placeholder. -/
def FileMemRegions.ofFilePosMemRegion (filePosition : List Int) (memoryRegion : RegionL) :
    FileMemRegions :=
  let f := RegionL.fromShape filePosition memoryRegion.shape
  { file := if isMaxPos memoryRegion.back then
      ⟨f.front, positionZero filePosition.length⟩ else f,
    memory := memoryRegion }

/-- The `FileMemRegions(fileRegion, memoryPosition)` constructor:
`memory = fromShape(memoryPosition, fileRegion.shape())`, and if the file
back is unresolved the memory back is set to `zero()` as a placeholder. -/
def FileMemRegions.ofFileRegionMemPos (fileRegion : RegionL) (memoryPosition : List Int) :
    FileMemRegions :=
  let m := RegionL.fromShape memoryPosition fileRegion.shape
  { file := fileRegion,
    memory := if isMaxPos fileRegion.back then
      ⟨m.front, positionZero memoryPosition.length⟩ else m }

/-- The body of the `resolve` loop, per axis: first and second components are
the new file and memory back components (`*fit` and `*mit`). -/
def resolveFileComp (f m fb mb t : Int) : Int :=
  if f = -1 then fb else if m = -1 then mb - t else f

/-- See `resolveFileComp`. -/
def resolveMemComp (f m fb mb t : Int) : Int :=
  if f = -1 then fb + t else if m = -1 then mb else m

/-- The `resolve` loop over the five simultaneous iterators
(`m_file.back`, `m_memory.back`, `fileBack`, `memoryBack`, `ftom`). -/
def resolveComponents : List Int → List Int → List Int → List Int → List Int →
    List Int × List Int
  | f :: fs, m :: ms, fb :: fbs, mb :: mbs, t :: ts =>
    let rest := resolveComponents fs ms fbs mbs ts
    if f = -1 then (fb :: rest.1, (fb + t) :: rest.2)
    else if m = -1 then ((mb - t) :: rest.1, mb :: rest.2)
    else (f :: rest.1, m :: rest.2)
  | _, _, _, _, _ => ([], [])

/-- `FileMemRegions::resolve(fileBack, memoryBack)`. -/
def FileMemRegions.resolve (r : FileMemRegions) (fileBack memoryBack : List Int) :
    FileMemRegions :=
  let res := resolveComponents r.file.back r.memory.back fileBack memoryBack r.fileToMemory
  { file := ⟨r.file.front, res.1⟩, memory := ⟨r.memory.front, res.2⟩ }

theorem getD_zipWith (f : Int → Int → Int) (l1 l2 : List Int) (i : Nat)
    (h1 : i < l1.length) (h2 : i < l2.length) :
    (List.zipWith f l1 l2).getD i 0 = f (l1.getD i 0) (l2.getD i 0) := by
  rw [List.getD_eq_getElem _ _ (by rw [List.length_zipWith]; omega),
    List.getElem_zipWith, List.getD_eq_getElem _ _ h1, List.getD_eq_getElem _ _ h2]

/-- The `resolve` loop acts independently on each axis, via
`resolveFileComp`/`resolveMemComp`. -/
theorem resolveComponents_getD :
    ∀ (fs ms fbs mbs ts : List Int) (i : Nat),
      fs.length = ms.length → fs.length = fbs.length → fs.length = mbs.length →
      fs.length = ts.length → i < fs.length →
      (resolveComponents fs ms fbs mbs ts).1.getD i 0
          = resolveFileComp (fs.getD i 0) (ms.getD i 0) (fbs.getD i 0) (mbs.getD i 0)
              (ts.getD i 0)
      ∧ (resolveComponents fs ms fbs mbs ts).2.getD i 0
          = resolveMemComp (fs.getD i 0) (ms.getD i 0) (fbs.getD i 0) (mbs.getD i 0)
              (ts.getD i 0) := by
  intro fs
  induction fs with
  | nil => intro ms fbs mbs ts i _ _ _ _ hi; simp at hi
  | cons f fs ih =>
    intro ms fbs mbs ts i h1 h2 h3 h4 hi
    cases ms with
    | nil => simp at h1
    | cons m ms =>
      cases fbs with
      | nil => simp at h2
      | cons fb fbs =>
        cases mbs with
        | nil => simp at h3
        | cons mb mbs =>
          cases ts with
          | nil => simp at h4
          | cons t ts =>
            cases i with
            | zero =>
              simp only [List.getD_cons_zero]
              unfold resolveComponents resolveFileComp resolveMemComp
              split_ifs <;> simp
            | succ j =>
              have hrec := ih ms fbs mbs ts j (by simpa using h1) (by simpa using h2)
                (by simpa using h3) (by simpa using h4) (by simpa using hi)
              simp only [List.getD_cons_succ]
              unfold resolveComponents
              split_ifs <;> simpa using hrec

/-- C3.  For a `FileMemRegions` in which, on each axis, at most one of the
file and memory back components is unresolved (`-1`), and given genuine
resolved bounds (each proposed back is a non-negative coordinate at least the
corresponding front), `resolve(fileBack, memoryBack)` leaves both fronts
unchanged, sets each unresolved file back component to the given file bound
and derives the paired memory component by adding the translation vector
`memory.front - file.front` (symmetrically on the memory side), leaves every
already-resolved back component unchanged, and leaves no unresolved
component in either region. -/
theorem fileMemRegions_resolve_spec (r : FileMemRegions) (fileBack memoryBack : List Int)
    (hl1 : r.file.back.length = r.file.front.length)
    (hl2 : r.memory.front.length = r.file.front.length)
    (hl3 : r.memory.back.length = r.file.front.length)
    (hl4 : fileBack.length = r.file.front.length)
    (hl5 : memoryBack.length = r.file.front.length)
    (hone : ∀ i, i < r.file.front.length →
      ¬(r.file.back.getD i 0 = -1 ∧ r.memory.back.getD i 0 = -1))
    (hbounds : ∀ i, i < r.file.front.length →
      0 ≤ r.file.front.getD i 0 ∧ 0 ≤ r.memory.front.getD i 0 ∧
      r.file.front.getD i 0 ≤ fileBack.getD i 0 ∧
      r.memory.front.getD i 0 ≤ memoryBack.getD i 0) :
    ((r.resolve fileBack memoryBack).file.front = r.file.front
      ∧ (r.resolve fileBack memoryBack).memory.front = r.memory.front)
    ∧ (∀ i, i < r.file.front.length →
        (r.file.back.getD i 0 = -1 →
          (r.resolve fileBack memoryBack).file.back.getD i 0 = fileBack.getD i 0
          ∧ (r.resolve fileBack memoryBack).memory.back.getD i 0
              = fileBack.getD i 0 + (r.memory.front.getD i 0 - r.file.front.getD i 0))
        ∧ (r.file.back.getD i 0 ≠ -1 → r.memory.back.getD i 0 = -1 →
          (r.resolve fileBack memoryBack).memory.back.getD i 0 = memoryBack.getD i 0
          ∧ (r.resolve fileBack memoryBack).file.back.getD i 0
              = memoryBack.getD i 0 - (r.memory.front.getD i 0 - r.file.front.getD i 0))
        ∧ (r.file.back.getD i 0 ≠ -1 → r.memory.back.getD i 0 ≠ -1 →
          (r.resolve fileBack memoryBack).file.back.getD i 0 = r.file.back.getD i 0
          ∧ (r.resolve fileBack memoryBack).memory.back.getD i 0
              = r.memory.back.getD i 0))
    ∧ (∀ i, i < r.file.front.length →
        (r.resolve fileBack memoryBack).file.back.getD i 0 ≠ -1
        ∧ (r.resolve fileBack memoryBack).memory.back.getD i 0 ≠ -1) := by
  have hlt : r.fileToMemory.length = r.file.front.length := by
    simp [FileMemRegions.fileToMemory, List.length_zipWith, hl2]
  have key : ∀ i, i < r.file.front.length →
      (r.resolve fileBack memoryBack).file.back.getD i 0
        = resolveFileComp (r.file.back.getD i 0) (r.memory.back.getD i 0)
            (fileBack.getD i 0) (memoryBack.getD i 0)
            (r.memory.front.getD i 0 - r.file.front.getD i 0)
      ∧ (r.resolve fileBack memoryBack).memory.back.getD i 0
        = resolveMemComp (r.file.back.getD i 0) (r.memory.back.getD i 0)
            (fileBack.getD i 0) (memoryBack.getD i 0)
            (r.memory.front.getD i 0 - r.file.front.getD i 0) := by
    intro i hi
    have ht : r.fileToMemory.getD i 0
        = r.memory.front.getD i 0 - r.file.front.getD i 0 :=
      getD_zipWith _ _ _ i (by omega) (by omega)
    have h := resolveComponents_getD r.file.back r.memory.back fileBack memoryBack
      r.fileToMemory i (by omega) (by omega) (by omega) (by omega) (by omega)
    rw [ht] at h
    exact h
  refine ⟨⟨rfl, rfl⟩, ?_, ?_⟩
  · intro i hi
    obtain ⟨hkf, hkm⟩ := key i hi
    refine ⟨fun hf => ?_, fun hf hm => ?_, fun hf hm => ?_⟩
    · rw [hkf, hkm, resolveFileComp, resolveMemComp, if_pos hf, if_pos hf]
      exact ⟨rfl, rfl⟩
    · rw [hkf, hkm, resolveFileComp, resolveMemComp, if_neg hf, if_neg hf,
        if_pos hm, if_pos hm]
      exact ⟨rfl, rfl⟩
    · rw [hkf, hkm, resolveFileComp, resolveMemComp, if_neg hf, if_neg hf,
        if_neg hm, if_neg hm]
      exact ⟨rfl, rfl⟩
  · intro i hi
    obtain ⟨hkf, hkm⟩ := key i hi
    obtain ⟨hff, hmf, hfb, hmb⟩ := hbounds i hi
    rw [hkf, hkm, resolveFileComp, resolveMemComp]
    split_ifs <;> constructor <;> omega

/-- Witness for C3, the spec §8 example: a `FileMemRegions` built from file
position `(5,5)` and a "whole" memory region, resolved against bounds
`(19,19)`/`(9,9)`: the memory back becomes `(9,9)` and the file back is
derived through the translation vector as `(14,14)`; nothing is left
unresolved. -/
theorem fileMemRegions_resolve_spec_witness :
    ((FileMemRegions.ofFilePosMemRegion [5, 5] (RegionL.whole 2)).resolve
        [19, 19] [9, 9]).memory.back.getD 0 0 = 9
    ∧ ((FileMemRegions.ofFilePosMemRegion [5, 5] (RegionL.whole 2)).resolve
        [19, 19] [9, 9]).file.back.getD 0 0 = 14
    ∧ ((FileMemRegions.ofFilePosMemRegion [5, 5] (RegionL.whole 2)).resolve
        [19, 19] [9, 9]).file.back.getD 1 0 ≠ -1 := by
  have h := fileMemRegions_resolve_spec
    (FileMemRegions.ofFilePosMemRegion [5, 5] (RegionL.whole 2)) [19, 19] [9, 9]
    (by decide) (by decide) (by decide) (by decide) (by decide)
    (by decide) (by decide)
  refine ⟨?_, ?_, (h.2.2 1 (by decide)).1⟩
  · have hc := ((h.2.1 0 (by decide)).2.1 (by decide) (by decide)).1
    simpa using hc
  · have hc := ((h.2.1 0 (by decide)).2.1 (by decide) (by decide)).2
    rw [hc]
    decide

/-! ## Compression model (`EleFitsData/Compression.h`, `impl/Compression.hpp`)

`float` is embedded as `Rat`; the only operations the source performs on the
stored value are negation, comparisons with zero and absolute value, which
`Rat` models exactly (NaN inputs excluded).  Throwing constructors and
setters are embedded as `Except String` values; an exception leaves the
receiver unchanged. -/

/-- `Compression::Factor`: a single float whose sign encodes the type. -/
structure Factor where
  m_value : ℚ
deriving DecidableEq, Repr

/-- `Factor::Type`. -/
inductive FactorType where
  | None
  | Absolute
  | Relative
deriving DecidableEq, Repr

/-- `Factor::none()`. -/
def Factor.none : Factor := ⟨0⟩

/-- `Factor::absolute(value)`: requires `value > 0`, stored negated. -/
def Factor.absolute (value : ℚ) : Except String Factor :=
  if value ≤ 0 then .error "Absolute factor value out of supported bounds"
  else .ok ⟨-value⟩

/-- `Factor::relative(value)`: requires `value > 0`, stored as is. -/
def Factor.relative (value : ℚ) : Except String Factor :=
  if value ≤ 0 then .error "Relative factor value out of supported bounds"
  else .ok ⟨value⟩

/-- `Factor::type()`: decided by the sign of the stored value. -/
def Factor.type (f : Factor) : FactorType :=
  if 0 < f.m_value then .Relative
  else if f.m_value < 0 then .Absolute
  else .None

/-- `Factor::value()`: the magnitude of the stored value. -/
def Factor.value (f : Factor) : ℚ := |f.m_value|

/-- `Factor::operator bool()`: the stored value is non-zero. -/
def Factor.toBool (f : Factor) : Bool := f.m_value != 0

/-- C6.  `Factor::none()` stores 0 with type `None`; for every `v`,
`absolute(v)` and `relative(v)` succeed exactly when `v > 0` and signal a
domain error otherwise (never clamping); on success the stored value is `-v`
(absolute) or `+v` (relative), the type is decided solely by the sign of the
stored value, and `value()` returns the magnitude `|storedValue| = v`. -/
theorem factor_sign_encoding (v : ℚ) (f : Factor) :
    (Factor.none.m_value = 0 ∧ Factor.none.type = FactorType.None
      ∧ Factor.none.value = 0)
    ∧ ((Factor.absolute v).isOk = true ↔ 0 < v)
    ∧ ((Factor.relative v).isOk = true ↔ 0 < v)
    ∧ (0 < v → Factor.absolute v = Except.ok ⟨-v⟩
        ∧ Factor.type ⟨-v⟩ = FactorType.Absolute ∧ Factor.value ⟨-v⟩ = v)
    ∧ (0 < v → Factor.relative v = Except.ok ⟨v⟩
        ∧ Factor.type ⟨v⟩ = FactorType.Relative ∧ Factor.value ⟨v⟩ = v)
    ∧ (f.type = if 0 < f.m_value then FactorType.Relative
        else if f.m_value < 0 then FactorType.Absolute else FactorType.None)
    ∧ f.value = |f.m_value| := by
  refine ⟨⟨rfl, rfl, rfl⟩, ?_, ?_, ?_, ?_, rfl, rfl⟩
  · unfold Factor.absolute
    split_ifs with h
    · simp only [Except.isOk, Except.toBool, Bool.false_eq_true, false_iff]
      exact not_lt.mpr h
    · simp only [Except.isOk, Except.toBool, true_iff]
      exact lt_of_not_le h
  · unfold Factor.relative
    split_ifs with h
    · simp only [Except.isOk, Except.toBool, Bool.false_eq_true, false_iff]
      exact not_lt.mpr h
    · simp only [Except.isOk, Except.toBool, true_iff]
      exact lt_of_not_le h
  · intro hv
    refine ⟨by rw [Factor.absolute, if_neg (not_le.mpr hv)], ?_, ?_⟩
    · rw [Factor.type]
      rw [if_neg (by simp only [not_lt]; linarith), if_pos (by simpa using hv)]
    · rw [Factor.value]
      simpa using abs_of_pos hv
  · intro hv
    refine ⟨by rw [Factor.relative, if_neg (not_le.mpr hv)], ?_, ?_⟩
    · rw [Factor.type, if_pos (by simpa using hv)]
    · rw [Factor.value]
      exact abs_of_pos hv

/-- Witness for C6: `absolute(-1)` and `relative(0)` fail; `absolute(4)`
stores `-4` with type `Absolute` and magnitude 4. -/
theorem factor_sign_encoding_witness :
    (Factor.absolute (-1)).isOk = false ∧ (Factor.relative 0).isOk = false
    ∧ Factor.absolute 4 = Except.ok ⟨-4⟩ ∧ Factor.value ⟨-4⟩ = 4 := by
  have ha := (factor_sign_encoding (-1) Factor.none).2.1
  have hr := (factor_sign_encoding 0 Factor.none).2.2.1
  have h4 := (factor_sign_encoding 4 Factor.none).2.2.2.1 (by norm_num)
  refine ⟨?_, ?_, h4.1, h4.2.2⟩
  · rcases hb : (Factor.absolute (-1)).isOk with _ | _
    · rfl
    · exact absurd (ha.mp hb) (by norm_num)
  · rcases hb : (Factor.relative 0).isOk with _ | _
    · rfl
    · exact absurd (hr.mp hb) (by norm_num)

/-- `Compression::Dithering`. -/
inductive Dithering where
  | None
  | NonZeroPixel
  | EveryPixel
deriving DecidableEq, Repr

/-- `Compression::Quantization`: a level factor and a dithering method. -/
structure Quantization where
  m_level : Factor
  m_dithering : Dithering
deriving DecidableEq, Repr

/-- `Quantization::dithering(method)` setter: throws when the level is none
and the method is not `None`; the receiver is unchanged on error. -/
def Quantization.dithering (q : Quantization) (method : Dithering) :
    Except String Quantization :=
  if q.m_level.toBool = false ∧ method ≠ Dithering.None then
    .error "Cannot set dithering method when quantization is deactivated"
  else .ok { q with m_dithering := method }

/-- The `Quantization(level, method)` constructor: starts from dithering
`None` and runs the `dithering` setter for the compatibility check. -/
def Quantization.ofLevelDithering (level : Factor) (method : Dithering) :
    Except String Quantization :=
  Quantization.dithering ⟨level, Dithering.None⟩ method

/-- The `Quantization(level)` constructor: dithering defaults to
`EveryPixel` when the level is active, else `None`. -/
def Quantization.ofLevel (level : Factor) : Except String Quantization :=
  Quantization.ofLevelDithering level
    (if level.toBool then Dithering.EveryPixel else Dithering.None)

/-- The `Quantization()` default constructor. -/
def Quantization.default' : Except String Quantization :=
  Quantization.ofLevelDithering Factor.none Dithering.None

/-- `Quantization::level(level)` setter: resets the dithering to `None` when
the new level is none. -/
def Quantization.level (q : Quantization) (level : Factor) : Quantization :=
  if level.toBool = false then ⟨level, Dithering.None⟩
  else ⟨level, q.m_dithering⟩

/-- C5.  Constructing a `Quantization` from a non-none factor without an
explicit dithering method defaults the dithering to `EveryPixel`;
constructing from `Factor::none()` yields dithering `None`; and the
`dithering` setter called with a non-none method while the level is none
signals a validation failure (an exception, which leaves the receiver's
dithering unchanged). -/
theorem quantization_ctor_dithering (level : Factor) (q : Quantization)
    (method : Dithering) :
    (level.toBool = true →
      Quantization.ofLevel level = Except.ok ⟨level, Dithering.EveryPixel⟩)
    ∧ Quantization.ofLevel Factor.none = Except.ok ⟨Factor.none, Dithering.None⟩
    ∧ (q.m_level.toBool = false → method ≠ Dithering.None →
      q.dithering method
        = Except.error "Cannot set dithering method when quantization is deactivated") := by
  refine ⟨fun hb => ?_, ?_, fun hq hm => ?_⟩
  · rw [Quantization.ofLevel, if_pos hb, Quantization.ofLevelDithering,
      Quantization.dithering, if_neg (by simp [hb])]
  · rfl
  · rw [Quantization.dithering, if_pos ⟨hq, hm⟩]

/-- Witness for C5: `Quantization(Factor::relative(4))` (stored value 4)
defaults to `EveryPixel` dithering; `Quantization(Factor::none())` has
dithering `None`, and setting `EveryPixel` on it fails. -/
theorem quantization_ctor_dithering_witness :
    Quantization.ofLevel ⟨4⟩ = Except.ok ⟨⟨4⟩, Dithering.EveryPixel⟩
    ∧ Quantization.ofLevel Factor.none = Except.ok ⟨Factor.none, Dithering.None⟩
    ∧ (Quantization.dithering ⟨Factor.none, Dithering.None⟩ Dithering.EveryPixel).isOk
        = false := by
  have h := quantization_ctor_dithering ⟨4⟩ ⟨Factor.none, Dithering.None⟩
    Dithering.EveryPixel
  refine ⟨h.1 (by decide), h.2.1, ?_⟩
  rw [h.2.2 (by decide) (by decide)]
  rfl

/-- The invariant of C10: a quantization with an inactive level has no
dithering. -/
def QuantizationInv (q : Quantization) : Prop :=
  q.m_level.toBool = false → q.m_dithering = Dithering.None

/-- The `Quantization` values reachable through the public constructors and
setters. -/
inductive QuantizationReachable : Quantization → Prop where
  | default (q : Quantization) :
      Quantization.default' = Except.ok q → QuantizationReachable q
  | ofLevel (level : Factor) (q : Quantization) :
      Quantization.ofLevel level = Except.ok q → QuantizationReachable q
  | ofLevelDithering (level : Factor) (method : Dithering) (q : Quantization) :
      Quantization.ofLevelDithering level method = Except.ok q →
      QuantizationReachable q
  | levelSet (q : Quantization) (level : Factor) :
      QuantizationReachable q → QuantizationReachable (q.level level)
  | ditheringSet (q : Quantization) (method : Dithering) (q' : Quantization) :
      QuantizationReachable q → q.dithering method = Except.ok q' →
      QuantizationReachable q'

theorem ofLevelDithering_inv (level : Factor) (method : Dithering)
    (q : Quantization) (h : Quantization.ofLevelDithering level method = Except.ok q) :
    QuantizationInv q := by
  rw [Quantization.ofLevelDithering, Quantization.dithering] at h
  split_ifs at h with hc
  all_goals cases h
  all_goals intro hb
  all_goals by_contra hm
  all_goals exact hc ⟨hb, hm⟩

/-- C10.  Every `Quantization` reachable through the public constructors and
setters satisfies the invariant "level none → dithering none"; in
particular the `level` setter called with `Factor::none()` silently resets
the dithering to `None` (it is total: no error is signalled). -/
theorem quantization_reachable_invariant (q : Quantization)
    (h : QuantizationReachable q) :
    QuantizationInv q
    ∧ ∀ q' : Quantization, q'.level Factor.none = ⟨Factor.none, Dithering.None⟩ := by
  refine ⟨?_, fun q' => by rw [Quantization.level, if_pos (by decide)]⟩
  induction h with
  | default q hq => exact ofLevelDithering_inv _ _ _ hq
  | ofLevel level q hq => exact ofLevelDithering_inv _ _ _ hq
  | ofLevelDithering level method q hq => exact ofLevelDithering_inv _ _ _ hq
  | levelSet q level hq ih =>
    rw [Quantization.level]
    split_ifs with hb
    · intro _; rfl
    · intro hb2; simp [hb2] at hb
  | ditheringSet q method q' hq hok ih =>
    rw [Quantization.dithering] at hok
    split_ifs at hok with hc
    all_goals cases hok
    all_goals intro hb
    all_goals by_contra hm
    all_goals exact hc ⟨hb, hm⟩

/-- Witness for C10: the reachable quantization `⟨relative 4, EveryPixel⟩`
satisfies the invariant, and resetting its level to none silently clears
the dithering. -/
theorem quantization_reachable_invariant_witness :
    QuantizationInv ⟨⟨4⟩, Dithering.EveryPixel⟩
    ∧ Quantization.level ⟨⟨4⟩, Dithering.EveryPixel⟩ Factor.none
        = ⟨Factor.none, Dithering.None⟩ := by
  have h := quantization_reachable_invariant ⟨⟨4⟩, Dithering.EveryPixel⟩
    (QuantizationReachable.ofLevel ⟨4⟩ _ (by rfl))
  exact ⟨h.1, h.2 _⟩

/-- Modelled from the spec: `OutOfBoundsError::mayThrow(prefix, value,
{lo, hi})` (`FitsError.h` is absent from `src/`): a validation failure when
the value lies outside the closed bounds. -/
def mayThrowOutOfBounds (value lo hi : Int) : Except String Unit :=
  if value < lo ∨ hi < value then .error "Tiling dimension error" else .ok ()

/-- `AlgoMixin` data: tiling shape and quantization. -/
structure AlgoMixinState where
  m_shape : List Int
  m_quantization : Quantization
deriving DecidableEq, Repr

/-- The `AlgoMixin(shape)` constructor: checks the tiling dimension against
the bounds `{0, 6}` and defaults the quantization. -/
def AlgoMixin.make (shape : List Int) : Except String AlgoMixinState :=
  (mayThrowOutOfBounds shape.length 0 6).map fun _ =>
    { m_shape := shape, m_quantization := ⟨Factor.none, Dithering.None⟩ }

/-- `Compression::None()`: empty tiling shape. -/
def noneAlgo : Except String AlgoMixinState := AlgoMixin.make []

/-- `Compression::Rice(shape)`. -/
def riceAlgo (shape : List Int) : Except String AlgoMixinState := AlgoMixin.make shape

/-- `Compression::HCompress(shape)`: additionally a none scale factor and
smoothing off. -/
def hcompressAlgo (shape : List Int) : Except String (AlgoMixinState × Factor × Bool) :=
  (AlgoMixin.make shape).map fun s => (s, Factor.none, false)

/-- `Compression::Plio(shape)`. -/
def plioAlgo (shape : List Int) : Except String AlgoMixinState := AlgoMixin.make shape

/-- `Compression::Gzip(shape)`. -/
def gzipAlgo (shape : List Int) : Except String AlgoMixinState := AlgoMixin.make shape

/-- `Compression::ShuffledGzip(shape)`. -/
def shuffledGzipAlgo (shape : List Int) : Except String AlgoMixinState :=
  AlgoMixin.make shape

theorem algoMixin_make_isOk (shape : List Int) :
    (AlgoMixin.make shape).isOk = true ↔ shape.length ≤ 6 := by
  rw [AlgoMixin.make, mayThrowOutOfBounds]
  split_ifs with h
  · simpa [Except.map, Except.isOk, Except.toBool] using by omega
  · simpa [Except.map, Except.isOk, Except.toBool] using by omega

/-- C7.  Constructing any compression algorithm with a tiling shape of more
than 6 axes signals a validation failure at construction time; a tiling
shape of at most 6 axes is accepted. -/
theorem algo_tiling_dimension (shape : List Int) :
    ((riceAlgo shape).isOk = true ↔ shape.length ≤ 6)
    ∧ ((hcompressAlgo shape).isOk = true ↔ shape.length ≤ 6)
    ∧ ((plioAlgo shape).isOk = true ↔ shape.length ≤ 6)
    ∧ ((gzipAlgo shape).isOk = true ↔ shape.length ≤ 6)
    ∧ ((shuffledGzipAlgo shape).isOk = true ↔ shape.length ≤ 6)
    ∧ noneAlgo.isOk = true := by
  have hh : (hcompressAlgo shape).isOk = (AlgoMixin.make shape).isOk := by
    rw [hcompressAlgo]
    cases AlgoMixin.make shape <;> rfl
  refine ⟨algoMixin_make_isOk shape, ?_, algoMixin_make_isOk shape,
    algoMixin_make_isOk shape, algoMixin_make_isOk shape, rfl⟩
  rw [hh]
  exact algoMixin_make_isOk shape

/-- Witness for C7: a 7-axis tiling shape is rejected by every constructor
taking a shape; a 2-axis one is accepted. -/
theorem algo_tiling_dimension_witness :
    (riceAlgo [1, 1, 1, 1, 1, 1, 1]).isOk = false
    ∧ (hcompressAlgo [1, 1, 1, 1, 1, 1, 1]).isOk = false
    ∧ (gzipAlgo [-1, 16]).isOk = true := by
  have h7 := algo_tiling_dimension [1, 1, 1, 1, 1, 1, 1]
  have h2 := algo_tiling_dimension [-1, 16]
  refine ⟨?_, ?_, h2.2.2.2.1.mpr (by norm_num)⟩
  · rcases hb : (riceAlgo [1, 1, 1, 1, 1, 1, 1]).isOk with _ | _
    · rfl
    · exact absurd (h7.1.mp hb) (by norm_num)
  · rcases hb : (hcompressAlgo [1, 1, 1, 1, 1, 1, 1]).isOk with _ | _
    · rfl
    · exact absurd (h7.2.1.mp hb) (by norm_num)

/-! ## Chunked multi-column bintable I/O
(`EleCfitsioWrapper/impl/BintableWrapper.hpp`)

`readColumns`/`writeColumns` are embedded as functions from the operation's
inputs to the sequence of storage-engine calls they issue (the trace) plus a
success flag.  The storage engine's answers are the `rows` (table row count,
`rowCount(fptr)`) and `chunkRows` (`fits_get_rowsize`) parameters. -/

/-- `Fits::Segment`: an inclusive 1-based row range. -/
structure Segment where
  front : Int
  back : Int
deriving DecidableEq, Repr

/-- `Segment::size()`: `back - front + 1`. -/
def Segment.size (s : Segment) : Int := s.back - s.front + 1

/-- `Segment::fromSize(front, size)`. -/
def Segment.fromSize (front size : Int) : Segment := ⟨front, front + size - 1⟩

/-- The metadata of one column taking part in a multi-column operation. -/
structure ColumnMeta where
  name : String
  index : Int
  repeatCount : Nat
  rowCount : Nat
  isString : Bool
deriving DecidableEq, Repr

/-- `ColumnInfo::elementCountPerEntry()`: the repeat count generically
(`impl/ColumnInfo.hpp`); the string specialization is absent from `src/` and
modelled from the spec: one logical string per row. -/
def elementCountPerEntry (c : ColumnMeta) : Nat :=
  if c.isString then 1 else c.repeatCount

/-- `Column::elementCount()` (declared in `EL_FitsData/Column.h`, definition
absent from `src/`), modelled from the spec: `rowCount × repeatCount`, except
string columns where it is just the row count. -/
def columnElementCount (c : ColumnMeta) : Nat :=
  c.rowCount * elementCountPerEntry c

/-- One storage-engine call, as observable from the wrapper layer. -/
inductive EngineCall where
  | getRowsize
  | readColInfo (index : Int)
  | columnIndexOf (name : String)
  | readCol (index : Int) (firstRow : Nat) (elementCount : Nat)
  | writeCol (index : Int) (firstRow : Nat) (elementCount : Nat) (bufferOffset : Nat)
deriving DecidableEq, Repr

/-- Is the call the `fits_get_rowsize` chunk-size query? -/
def isGetRowsize : EngineCall → Bool
  | .getRowsize => true
  | _ => false

/-- Is the call a per-column data transfer (`fits_read_col` or
`fits_write_col`)? -/
def isDataTransfer : EngineCall → Bool
  | .readCol _ _ _ => true
  | .writeCol _ _ _ _ => true
  | _ => false

/-- The element count `readColumnData`/`writeColumnData` pass to the engine
for a segment of rows: `rows.size() * repeatCount` generically (from the
source); the string specializations are absent from `src/` and modelled from
the spec: the row count alone. -/
def columnDataElementCount (isString : Bool) (rows : Segment) (repeatCount : Int) : Int :=
  if isString then rows.size else rows.size * repeatCount

/-- The chunk loop of `readColumns`/`writeColumns`:
`for (long first = 1; first <= rows; first += chunkRows)`, truncating the
last chunk to `rows - first + 1` rows.  Returns the `(firstRow, rowCount)`
pairs of the chunks, in loop order.  (The source never reaches the loop with
`chunkRows = 0`: it throws beforehand; the guard is here only to make the
recursion total.) -/
def chunkList (rows : Nat) (chunkRows first : Nat) : List (Nat × Nat) :=
  if h : chunkRows = 0 ∨ rows < first then []
  else
    let c := if rows < first + chunkRows - 1 then rows - first + 1 else chunkRows
    (first, c) :: chunkList rows c (first + c)
termination_by rows + 1 - first
decreasing_by
  simp only [not_or, not_lt] at h
  split_ifs <;> omega

/-- Element count of a chunk transfer for one column: the chunk row count
for string columns, `rowCount * repeatCount` otherwise
(`columnDataElementCount` at `Segment::fromSize(first, cnt)`). -/
def chunkElementCount (c : ColumnMeta) (cnt : Nat) : Nat :=
  if c.isString then cnt else cnt * c.repeatCount

/-- `Internal::ColumnLooperImpl<i>::readChunks`: the recursion starts at the
last tuple index and calls `readColumnData` for column `i` before recursing
to `i - 1`, so the per-column calls of a chunk are issued from the last
column to the first. -/
def readChunkCalls (cols : List ColumnMeta) (first cnt : Nat) : List EngineCall :=
  cols.reverse.map fun c => .readCol c.index first (chunkElementCount c cnt)

/-- `Internal::ColumnLooperImpl<i>::writeChunks`, likewise from the last
column to the first; the buffer offset is the one of
`&column(firstRow - 1)`. -/
def writeChunkCalls (cols : List ColumnMeta) (first cnt : Nat) : List EngineCall :=
  cols.reverse.map fun c =>
    .writeCol c.index first (chunkElementCount c cnt) ((first - 1) * elementCountPerEntry c)

/-- `Internal::ColumnLooperImpl::maxRowCount`: the maximum row count of the
supplied columns. -/
def maxRowCount (cols : List ColumnMeta) : Nat :=
  cols.foldr (fun c m => max c.rowCount m) 0

/-- `readColumns(fptr, indices)`: reads the column infos (last column
first), queries `fits_get_rowsize` once, throws if the answer is 0, then
loops over the chunks reading every column per chunk. -/
def readColumnsTrace (cols : List ColumnMeta) (rows chunkRows : Nat) :
    List EngineCall × Bool :=
  let infos := cols.reverse.map fun c => EngineCall.readColInfo c.index
  if chunkRows = 0 then (infos ++ [.getRowsize], false)
  else (infos ++ [.getRowsize]
    ++ (chunkList rows chunkRows 1).flatMap (fun p => readChunkCalls cols p.1 p.2), true)

/-- `writeColumns(fptr, columns...)`: computes the max row count, queries
`fits_get_rowsize` once, throws if the answer is 0, resolves the column
indices by name, then loops over the chunks writing every column per
chunk. -/
def writeColumnsTrace (cols : List ColumnMeta) (chunkRows : Nat) :
    List EngineCall × Bool :=
  if chunkRows = 0 then ([.getRowsize], false)
  else ([.getRowsize] ++ (cols.map fun c => EngineCall.columnIndexOf c.name)
    ++ (chunkList (maxRowCount cols) chunkRows 1).flatMap
        (fun p => writeChunkCalls cols p.1 p.2), true)

/-- The chunks starting from `first` are contiguous: each chunk starts where
the previous one ended and is at least one row. -/
def contigFrom : Nat → List (Nat × Nat) → Prop
  | _, [] => True
  | first, pr :: rest => pr.1 = first ∧ 1 ≤ pr.2 ∧ contigFrom (first + pr.2) rest

theorem chunkList_spec_aux (rows : Nat) :
    ∀ (fuel chunkRows first : Nat), rows + 1 - first ≤ fuel → 1 ≤ chunkRows →
      contigFrom first (chunkList rows chunkRows first)
      ∧ ((chunkList rows chunkRows first).map Prod.snd).sum = rows + 1 - first := by
  intro fuel
  induction fuel with
  | zero =>
    intro cr first hf hcr
    rw [chunkList, dif_pos (Or.inr (by omega))]
    refine ⟨trivial, ?_⟩
    simp only [List.map_nil, List.sum_nil]
    omega
  | succ n ih =>
    intro cr first hf hcr
    by_cases h : cr = 0 ∨ rows < first
    · rw [chunkList, dif_pos h]
      refine ⟨trivial, ?_⟩
      simp only [List.map_nil, List.sum_nil]
      omega
    · rw [chunkList, dif_neg h]
      simp only [not_or, not_lt] at h
      obtain ⟨h0, h1⟩ := h
      have hrec := ih (if rows < first + cr - 1 then rows - first + 1 else cr)
        (first + (if rows < first + cr - 1 then rows - first + 1 else cr))
        (by split_ifs <;> omega) (by split_ifs <;> omega)
      refine ⟨⟨rfl, by split_ifs <;> omega, hrec.1⟩, ?_⟩
      simp only [List.map_cons, List.sum_cons, hrec.2]
      split_ifs <;> omega

theorem chunkList_contig (rows chunkRows : Nat) (hcr : 1 ≤ chunkRows) :
    contigFrom 1 (chunkList rows chunkRows 1) :=
  (chunkList_spec_aux rows (rows + 1) chunkRows 1 (by omega) hcr).1

theorem chunkList_sum (rows chunkRows : Nat) (hcr : 1 ≤ chunkRows) :
    ((chunkList rows chunkRows 1).map Prod.snd).sum = rows :=
  (chunkList_spec_aux rows (rows + 1) chunkRows 1 (by omega) hcr).2.trans (by omega)

/-- Contiguous chunks have strictly increasing first rows. -/
theorem contigFrom_chain :
    ∀ (l : List (Nat × Nat)) (first : Nat), contigFrom first l →
      List.Chain' (· < ·) (l.map Prod.fst) := by
  intro l
  induction l with
  | nil => intro first _; simp
  | cons pr rest ih =>
    intro first h
    obtain ⟨h1, h2, h3⟩ := h
    cases rest with
    | nil => simp
    | cons pr2 rest2 =>
      obtain ⟨h4, h5, h6⟩ := h3
      simp only [List.map_cons]
      rw [List.chain'_cons]
      exact ⟨by omega, by simpa using ih (first + pr.2) ⟨h4, h5, h6⟩⟩

theorem contigFrom_mem :
    ∀ (l : List (Nat × Nat)) (first : Nat), contigFrom first l →
      ∀ pr ∈ l, first ≤ pr.1 ∧ 1 ≤ pr.2 := by
  intro l
  induction l with
  | nil => intro first _ pr hpr; simp at hpr
  | cons q rest ih =>
    intro first h pr hpr
    obtain ⟨h1, h2, h3⟩ := h
    rcases List.mem_cons.mp hpr with rfl | hm
    · omega
    · have := ih (first + q.2) h3 pr hm
      omega

/-- A nonempty contiguous chunk list summing to `rows + 1 - first` contains a
chunk ending exactly at row `rows`. -/
theorem contigFrom_last :
    ∀ (l : List (Nat × Nat)) (first rows : Nat), contigFrom first l →
      (l.map Prod.snd).sum + first = rows + 1 → l ≠ [] →
      ∃ pr ∈ l, pr.1 + pr.2 = rows + 1 := by
  intro l
  induction l with
  | nil => intro first rows _ _ hne; exact absurd rfl hne
  | cons q rest ih =>
    intro first rows hc hsum _
    obtain ⟨h1, h2, h3⟩ := hc
    cases rest with
    | nil =>
      refine ⟨q, List.mem_cons_self q [], ?_⟩
      simp only [List.map_cons, List.map_nil, List.sum_cons, List.sum_nil] at hsum
      omega
    | cons q2 rest2 =>
      obtain ⟨pr, hm, hpr⟩ := ih (first + q.2) rows h3
        (by simp only [List.map_cons, List.sum_cons] at hsum ⊢; omega)
        (by simp)
      exact ⟨pr, List.mem_cons_of_mem q hm, hpr⟩

theorem countP_map_eq_zero {α : Type} (l : List α) (f : α → EngineCall)
    (p : EngineCall → Bool) (h : ∀ a, p (f a) = false) : (l.map f).countP p = 0 := by
  rw [List.countP_eq_zero]
  intro a ha
  obtain ⟨b, _, rfl⟩ := List.mem_map.mp ha
  simp [h b]

theorem countP_flatMap_eq_zero {α : Type} (l : List α) (g : α → List EngineCall)
    (p : EngineCall → Bool) (h : ∀ a, ∀ k ∈ g a, p k = false) :
    (l.flatMap g).countP p = 0 := by
  rw [List.countP_eq_zero]
  intro k hk
  obtain ⟨a, _, hk2⟩ := List.mem_flatMap.mp hk
  simp [h a k hk2]

/-- C1.  In every multi-column bulk read and bulk write, the optimal
row-chunk size is queried from the storage engine exactly once, before any
per-column data transfer; and if the engine answers 0, the whole operation
fails and the trace contains no data transfer at all (no chunk is read or
written). -/
theorem multiColumn_chunkSize_query (cols : List ColumnMeta) (rows chunkRows : Nat) :
    (∃ pre post,
      (readColumnsTrace cols rows chunkRows).1 = pre ++ EngineCall.getRowsize :: post
      ∧ pre.countP isGetRowsize = 0 ∧ post.countP isGetRowsize = 0
      ∧ pre.countP isDataTransfer = 0
      ∧ (chunkRows = 0 →
          (readColumnsTrace cols rows chunkRows).2 = false ∧ post = []))
    ∧ (∃ pre post,
      (writeColumnsTrace cols chunkRows).1 = pre ++ EngineCall.getRowsize :: post
      ∧ pre.countP isGetRowsize = 0 ∧ post.countP isGetRowsize = 0
      ∧ pre.countP isDataTransfer = 0
      ∧ (chunkRows = 0 →
          (writeColumnsTrace cols chunkRows).2 = false ∧ post = [])) := by
  constructor
  · by_cases h0 : chunkRows = 0
    · refine ⟨cols.reverse.map fun c => EngineCall.readColInfo c.index, [],
        ?_, ?_, rfl, ?_, fun _ => ⟨?_, rfl⟩⟩
      · simp [readColumnsTrace, h0]
      · exact countP_map_eq_zero _ _ _ fun a => rfl
      · exact countP_map_eq_zero _ _ _ fun a => rfl
      · simp [readColumnsTrace, h0]
    · refine ⟨cols.reverse.map fun c => EngineCall.readColInfo c.index,
        (chunkList rows chunkRows 1).flatMap fun p => readChunkCalls cols p.1 p.2,
        ?_, ?_, ?_, ?_, fun hc => absurd hc h0⟩
      · simp [readColumnsTrace, h0]
      · exact countP_map_eq_zero _ _ _ fun a => rfl
      · refine countP_flatMap_eq_zero _ _ _ fun p k hk => ?_
        obtain ⟨c, _, rfl⟩ := List.mem_map.mp hk
        rfl
      · exact countP_map_eq_zero _ _ _ fun a => rfl
  · by_cases h0 : chunkRows = 0
    · exact ⟨[], [], by simp [writeColumnsTrace, h0], rfl, rfl, rfl,
        fun _ => ⟨by simp [writeColumnsTrace, h0], rfl⟩⟩
    · refine ⟨[],
        (cols.map fun c => EngineCall.columnIndexOf c.name)
          ++ (chunkList (maxRowCount cols) chunkRows 1).flatMap
              (fun p => writeChunkCalls cols p.1 p.2),
        ?_, rfl, ?_, rfl, fun hc => absurd hc h0⟩
      · simp [writeColumnsTrace, h0]
      · rw [List.countP_append _ _ _, countP_map_eq_zero _ _ _ fun a => rfl,
          countP_flatMap_eq_zero _ _ _ fun p k hk => ?_]
        obtain ⟨c, _, rfl⟩ := List.mem_map.mp hk
        rfl

/-- Witness for C1: with `optimalRowChunkSize = 0`, the read and write both
fail and the read trace contains no per-column data transfer. -/
theorem multiColumn_chunkSize_query_witness :
    (readColumnsTrace [⟨"A", 1, 1, 3, false⟩] 3 0).2 = false
    ∧ (readColumnsTrace [⟨"A", 1, 1, 3, false⟩] 3 0).1.countP isDataTransfer = 0
    ∧ (writeColumnsTrace [⟨"A", 1, 1, 3, false⟩] 0).2 = false := by
  obtain ⟨⟨pre, post, htr, _, _, hdata, himp⟩, ⟨_, _, _, _, _, _, himp2⟩⟩ :=
    multiColumn_chunkSize_query [⟨"A", 1, 1, 3, false⟩] 3 0
  refine ⟨(himp rfl).1, ?_, (himp2 rfl).1⟩
  rw [htr, (himp rfl).2, List.countP_append _ _ _, hdata]
  rfl

/-- The column index of a data-transfer call. -/
def dataCallIndex : EngineCall → Option Int
  | .readCol i _ _ => some i
  | .writeCol i _ _ _ => some i
  | _ => none

/-- C2, counterexample.  The claim says the per-column calls within a chunk
are issued in the caller-supplied column order.  For the two-column read
(columns with engine indices 1 and 2, in this caller order) over one chunk,
the issued data-transfer calls carry the indices `[2, 1]` — the reverse of
the caller order `[1, 2]`: `ColumnLooperImpl` recurses from the last tuple
index down to 0 and issues each column's call before recursing. -/
theorem multiColumn_column_order_counterexample :
    ((readColumnsTrace [⟨"A", 1, 1, 1, false⟩, ⟨"B", 2, 1, 1, false⟩] 1 1).1.filterMap
        dataCallIndex = [2, 1])
    ∧ (([⟨"A", 1, 1, 1, false⟩, ⟨"B", 2, 1, 1, false⟩] : List ColumnMeta).map
        (fun c => c.index) = [1, 2])
    ∧ ¬ ((readColumnsTrace [⟨"A", 1, 1, 1, false⟩, ⟨"B", 2, 1, 1, false⟩] 1 1).1.filterMap
        dataCallIndex
      = ([⟨"A", 1, 1, 1, false⟩, ⟨"B", 2, 1, 1, false⟩] : List ColumnMeta).map
        (fun c => c.index)) := by
  have h : (readColumnsTrace [⟨"A", 1, 1, 1, false⟩, ⟨"B", 2, 1, 1, false⟩] 1 1).1.filterMap
      dataCallIndex = [2, 1] := by
    simp [readColumnsTrace, chunkList, readChunkCalls, chunkElementCount, dataCallIndex]
  refine ⟨h, rfl, fun hcontra => ?_⟩
  rw [h] at hcontra
  simp at hcontra

/-- C2, amended.  Within one multi-column bulk read or write, chunks are
processed strictly in increasing row order; within each chunk, the
per-column storage-engine calls are issued in the REVERSE of the
caller-supplied column order (from the last column of the pack to the
first). -/
theorem multiColumn_chunk_and_column_order (cols : List ColumnMeta) (rows chunkRows : Nat) :
    List.Chain' (· < ·) ((chunkList rows chunkRows 1).map Prod.fst)
    ∧ List.Chain' (· < ·) ((chunkList (maxRowCount cols) chunkRows 1).map Prod.fst)
    ∧ ((readColumnsTrace cols rows chunkRows).1.filter isDataTransfer
        = (chunkList rows chunkRows 1).flatMap fun p => readChunkCalls cols p.1 p.2)
    ∧ ((writeColumnsTrace cols chunkRows).1.filter isDataTransfer
        = (chunkList (maxRowCount cols) chunkRows 1).flatMap
            fun p => writeChunkCalls cols p.1 p.2)
    ∧ (∀ first cnt, readChunkCalls cols first cnt
        = (cols.map fun c =>
            EngineCall.readCol c.index first (chunkElementCount c cnt)).reverse)
    ∧ (∀ first cnt, writeChunkCalls cols first cnt
        = (cols.map fun c =>
            EngineCall.writeCol c.index first (chunkElementCount c cnt)
              ((first - 1) * elementCountPerEntry c)).reverse) := by
  have hchain : ∀ r : Nat, List.Chain' (· < ·) ((chunkList r chunkRows 1).map Prod.fst) := by
    intro r
    by_cases h0 : chunkRows = 0
    · rw [chunkList, dif_pos (Or.inl h0)]
      simp
    · exact contigFrom_chain _ 1 (chunkList_contig r chunkRows (by omega))
  have hreadflat : ∀ (fl : List (Nat × Nat)),
      ((fl.flatMap fun p => readChunkCalls cols p.1 p.2).filter isDataTransfer)
        = fl.flatMap fun p => readChunkCalls cols p.1 p.2 := by
    intro fl
    rw [List.filter_eq_self]
    intro k hk
    obtain ⟨p, _, hk2⟩ := List.mem_flatMap.mp hk
    obtain ⟨c, _, rfl⟩ := List.mem_map.mp hk2
    rfl
  have hwriteflat : ∀ (fl : List (Nat × Nat)),
      ((fl.flatMap fun p => writeChunkCalls cols p.1 p.2).filter isDataTransfer)
        = fl.flatMap fun p => writeChunkCalls cols p.1 p.2 := by
    intro fl
    rw [List.filter_eq_self]
    intro k hk
    obtain ⟨p, _, hk2⟩ := List.mem_flatMap.mp hk
    obtain ⟨c, _, rfl⟩ := List.mem_map.mp hk2
    rfl
  have hinfos : (cols.reverse.map fun c => EngineCall.readColInfo c.index).filter
      isDataTransfer = [] := by
    rw [List.filter_eq_nil_iff]
    intro k hk
    obtain ⟨c, _, rfl⟩ := List.mem_map.mp hk
    simp [isDataTransfer]
  have hidxcalls : (cols.map fun c => EngineCall.columnIndexOf c.name).filter
      isDataTransfer = [] := by
    rw [List.filter_eq_nil_iff]
    intro k hk
    obtain ⟨c, _, rfl⟩ := List.mem_map.mp hk
    simp [isDataTransfer]
  refine ⟨hchain rows, hchain (maxRowCount cols), ?_, ?_,
    fun first cnt => List.map_reverse _ _, fun first cnt => List.map_reverse _ _⟩
  · by_cases h0 : chunkRows = 0
    · rw [chunkList, dif_pos (Or.inl h0)]
      simp only [readColumnsTrace, if_pos h0, List.flatMap_nil]
      rw [List.filter_append, hinfos]
      rfl
    · simp only [readColumnsTrace, if_neg h0, List.append_assoc, List.singleton_append,
        List.filter_append, hinfos, List.nil_append, List.filter_cons]
      rw [hreadflat]
      simp [isDataTransfer]
  · by_cases h0 : chunkRows = 0
    · rw [chunkList, dif_pos (Or.inl h0)]
      simp only [writeColumnsTrace, if_pos h0, List.flatMap_nil]
      rfl
    · simp only [writeColumnsTrace, if_neg h0, List.singleton_append,
        List.filter_cons, List.filter_append, hidxcalls, List.nil_append]
      rw [hwriteflat]
      simp [isDataTransfer]

/-- Is the call a `fits_write_col` for the given column index? -/
def isWriteForIndex (i : Int) : EngineCall → Bool
  | .writeCol j _ _ _ => j == i
  | _ => false

/-- Does the write call touch a buffer element at or past the column's own
declared element count? -/
def touchesPastEnd (col : ColumnMeta) : EngineCall → Bool
  | .writeCol _ _ ec off => decide (columnElementCount col < off + ec)
  | _ => false

theorem chunkElementCount_eq (col : ColumnMeta) (cnt : Nat) :
    chunkElementCount col cnt = cnt * elementCountPerEntry col := by
  unfold chunkElementCount elementCountPerEntry
  split_ifs <;> simp

theorem flatMap_singleton_eq_map {α β : Type} (l : List α) (f : α → β) :
    (l.flatMap fun a => [f a]) = l.map f := by
  induction l with
  | nil => rfl
  | cons a t ih => simp [List.flatMap_cons, ih]

/-- In a list of columns with pairwise distinct engine indices, filtering the
per-column calls of a chunk by one column's index leaves exactly that
column's call. -/
theorem filter_map_single (l : List ColumnMeta) (col : ColumnMeta)
    (g : ColumnMeta → EngineCall) (p : EngineCall → Bool)
    (hm : col ∈ l) (hn : (l.map fun c => c.index).Nodup)
    (hg : ∀ c, p (g c) = (c.index == col.index)) :
    (l.map g).filter p = [g col] := by
  induction l with
  | nil => cases hm
  | cons c rest ih =>
    simp only [List.map_cons] at hn
    by_cases hic : c.index = col.index
    · have hcol : col = c := by
        rcases List.mem_cons.mp hm with rfl | hmem
        · rfl
        · exact absurd (hic ▸ List.mem_map_of_mem _ hmem)
            (List.nodup_cons.mp hn).1
      subst hcol
      rw [List.map_cons, List.filter_cons, hg col]
      simp only [beq_self_eq_true, if_true]
      have hrest : (rest.map g).filter p = [] := by
        rw [List.filter_eq_nil_iff]
        intro k hk
        obtain ⟨c2, hc2, rfl⟩ := List.mem_map.mp hk
        rw [hg c2]
        simp only [beq_eq_false_iff_ne, ne_eq, Bool.not_eq_true]
        intro heq
        exact (List.nodup_cons.mp hn).1 (heq ▸ List.mem_map_of_mem _ hc2)
      rw [hrest]
    · have hmem : col ∈ rest := by
        rcases List.mem_cons.mp hm with rfl | hmem
        · exact absurd rfl hic
        · exact hmem
      rw [List.map_cons, List.filter_cons, hg c, if_neg (by simp [hic])]
      exact ih hmem (List.nodup_cons.mp hn).2

/-- C9.  In a multi-column write, the number of rows written is the maximum
of the supplied columns' row counts; that same set of row chunks is
transferred for every column (one `fits_write_col` per chunk per column);
and a column whose own row count is smaller than the maximum is not
truncated: one of its write calls reads the buffer past the column's
declared element count. -/
theorem writeColumns_rows_max_no_truncation (cols : List ColumnMeta)
    (chunkRows : Nat) (col : ColumnMeta)
    (hm : col ∈ cols) (hn : (cols.map fun c => c.index).Nodup)
    (hcr : 1 ≤ chunkRows) :
    ((writeColumnsTrace cols chunkRows).1.filter (isWriteForIndex col.index)
      = (chunkList (maxRowCount cols) chunkRows 1).map
          fun p => EngineCall.writeCol col.index p.1 (chunkElementCount col p.2)
            ((p.1 - 1) * elementCountPerEntry col))
    ∧ ((chunkList (maxRowCount cols) chunkRows 1).map Prod.snd).sum = maxRowCount cols
    ∧ (1 ≤ col.repeatCount → col.rowCount < maxRowCount cols →
        ∃ k ∈ (writeColumnsTrace cols chunkRows).1,
          isWriteForIndex col.index k = true ∧ touchesPastEnd col k = true) := by
  have h0 : ¬ chunkRows = 0 := by omega
  have hsum := chunkList_sum (maxRowCount cols) chunkRows hcr
  have hcontig := chunkList_contig (maxRowCount cols) chunkRows hcr
  refine ⟨?_, hsum, ?_⟩
  · simp only [writeColumnsTrace, if_neg h0, List.singleton_append, List.filter_cons,
      List.filter_append]
    have hidx : (cols.map fun c => EngineCall.columnIndexOf c.name).filter
        (isWriteForIndex col.index) = [] := by
      rw [List.filter_eq_nil_iff]
      intro k hk
      obtain ⟨c, _, rfl⟩ := List.mem_map.mp hk
      simp [isWriteForIndex]
    rw [hidx, List.filter_flatMap _ _ _]
    have hchunk : ∀ p : Nat × Nat, (writeChunkCalls cols p.1 p.2).filter
        (isWriteForIndex col.index)
        = [EngineCall.writeCol col.index p.1 (chunkElementCount col p.2)
            ((p.1 - 1) * elementCountPerEntry col)] := by
      intro p
      unfold writeChunkCalls
      rw [filter_map_single cols.reverse col _ _ (List.mem_reverse.mpr hm)
        (by rw [List.map_reverse]; exact List.nodup_reverse.mpr hn)
        (fun c => by simp [isWriteForIndex])]
    simp only [hchunk]
    rw [flatMap_singleton_eq_map]
    simp [isWriteForIndex]
  · intro hrep hlt
    have hmax1 : 1 ≤ maxRowCount cols := by omega
    have hne : chunkList (maxRowCount cols) chunkRows 1 ≠ [] := by
      intro hnil
      rw [hnil] at hsum
      simp at hsum
      omega
    obtain ⟨pr, hprm, hpre⟩ := contigFrom_last _ 1 (maxRowCount cols) hcontig
      (by omega) hne
    obtain ⟨hpr1, hpr2⟩ := contigFrom_mem _ 1 hcontig pr hprm
    have hepe : 0 < elementCountPerEntry col := by
      unfold elementCountPerEntry
      split_ifs <;> omega
    refine ⟨EngineCall.writeCol col.index pr.1 (chunkElementCount col pr.2)
      ((pr.1 - 1) * elementCountPerEntry col), ?_, by simp [isWriteForIndex], ?_⟩
    · simp only [writeColumnsTrace, if_neg h0, List.singleton_append]
      refine List.mem_cons_of_mem _ (List.mem_append_right _ ?_)
      refine List.mem_flatMap.mpr ⟨pr, hprm, ?_⟩
      unfold writeChunkCalls
      exact List.mem_map_of_mem _ (List.mem_reverse.mpr hm)
    · simp only [touchesPastEnd, decide_eq_true_eq]
      rw [chunkElementCount_eq]
      have harith : ((pr.1 - 1) * elementCountPerEntry col
          + pr.2 * elementCountPerEntry col)
          = maxRowCount cols * elementCountPerEntry col := by
        rw [← Nat.add_mul]
        congr 1
        omega
      rw [harith, columnElementCount]
      exact (Nat.mul_lt_mul_right hepe).mpr hlt

/-- Witness for C9: two columns (3 rows and 1 row), chunk size 2: the total
row count written is 3, and the 1-row column's transfers run past its
declared single-row buffer. -/
theorem writeColumns_rows_max_no_truncation_witness :
    (((chunkList (maxRowCount [⟨"A", 1, 1, 3, false⟩, ⟨"B", 2, 1, 1, false⟩]) 2 1).map
      Prod.snd).sum = maxRowCount [⟨"A", 1, 1, 3, false⟩, ⟨"B", 2, 1, 1, false⟩])
    ∧ (∃ k ∈ (writeColumnsTrace [⟨"A", 1, 1, 3, false⟩, ⟨"B", 2, 1, 1, false⟩] 2).1,
        isWriteForIndex 2 k = true
        ∧ touchesPastEnd ⟨"B", 2, 1, 1, false⟩ k = true) := by
  have h := writeColumns_rows_max_no_truncation
    [⟨"A", 1, 1, 3, false⟩, ⟨"B", 2, 1, 1, false⟩] 2 ⟨"B", 2, 1, 1, false⟩
    (by simp) (by simp) (by omega)
  exact ⟨h.2.1, h.2.2 (by decide) (by decide)⟩

/-- C8.  For string-valued columns, the element count passed to the storage
engine's bulk column read/write call equals the row count, not
`rowCount × repeatCount`; for scalar and fixed-size-vector columns it equals
`rowCount × repeatCount`.  The chunk loop passes the segment
`Segment::fromSize(firstRow, rowCount)`, whose size is the chunk row
count. -/
theorem string_column_element_count (c : ColumnMeta) (seg : Segment)
    (f n : Int) (cnt : Nat) :
    (c.isString = true →
      columnDataElementCount c.isString seg c.repeatCount = seg.size
      ∧ columnElementCount c = c.rowCount
      ∧ chunkElementCount c cnt = cnt)
    ∧ (c.isString = false →
      columnDataElementCount c.isString seg c.repeatCount = seg.size * c.repeatCount
      ∧ columnElementCount c = c.rowCount * c.repeatCount
      ∧ chunkElementCount c cnt = cnt * c.repeatCount)
    ∧ (Segment.fromSize f n).size = n
    ∧ (c.isString = true → 1 < c.repeatCount → 0 < c.rowCount →
        columnElementCount c < c.rowCount * c.repeatCount) := by
  refine ⟨fun hs => ?_, fun hs => ?_, ?_, fun hs hrep hrow => ?_⟩
  · rw [columnDataElementCount, if_pos hs, columnElementCount,
      elementCountPerEntry, if_pos hs, chunkElementCount, if_pos hs]
    exact ⟨rfl, by omega, rfl⟩
  · rw [columnDataElementCount, if_neg (by simp [hs]), columnElementCount,
      elementCountPerEntry, if_neg (by simp [hs]), chunkElementCount,
      if_neg (by simp [hs])]
    exact ⟨rfl, rfl, rfl⟩
  · rw [Segment.fromSize, Segment.size]
    ring
  · rw [columnElementCount, elementCountPerEntry, if_pos hs]
    calc c.rowCount * 1 = c.rowCount := by omega
    _ < c.rowCount * c.repeatCount := by
        exact (Nat.lt_mul_iff_one_lt_right hrow).mpr hrep

/-- Witness for C8: a string column with repeat count 16 and 23 rows:
the declared element count is 23 (the row count), strictly less than
`23 × 16`; a chunk of 7 rows transfers 7 elements; an `int32` column with
repeat count 16 transfers `7 × 16` elements for the same chunk. -/
theorem string_column_element_count_witness :
    columnElementCount ⟨"S", 3, 16, 23, true⟩ = 23
    ∧ chunkElementCount ⟨"S", 3, 16, 23, true⟩ 7 = 7
    ∧ columnElementCount ⟨"S", 3, 16, 23, true⟩ < 23 * 16
    ∧ chunkElementCount ⟨"I", 1, 16, 23, false⟩ 7 = 7 * 16
    ∧ (Segment.fromSize 1 7).size = 7 := by
  have hs := string_column_element_count ⟨"S", 3, 16, 23, true⟩ ⟨1, 7⟩ 1 7 7
  have hi := string_column_element_count ⟨"I", 1, 16, 23, false⟩ ⟨1, 7⟩ 1 7 7
  refine ⟨(hs.1 rfl).2.1, (hs.1 rfl).2.2, ?_, (hi.2.1 rfl).2.2, hs.2.2.1⟩
  have := hs.2.2.2 rfl (by decide) (by decide)
  simpa using this

end EleFits
